import Mathlib

/-!
Verification of the metric engine of `src/eval.py` (class `Metric`).

The engine accumulates, over a stream of (prediction, ground-truth) image
pairs, a mean-absolute-error sum, per-threshold precision/recall sums over
256 thresholds, and an S-measure sum, and finally reports averaged values
together with the maximal F-measure.

Embedding conventions:
* a 2-D numpy array is a list of rows of exact rationals (`Img`); the
  float literals `1e-4`, `0.3`, `1e-20`, `255.0` of the source are read as
  the exact rationals they denote, so all arithmetic is exact;
* `np.std` takes a square root, which is not rational, so every definition
  that transitively uses `Metric._object` is parametric in a function
  `sq : ℚ → ℚ` standing for the square root; every theorem below is proved
  for all `sq`, in particular for the true square root;
* division by zero follows Lean's total convention `x / 0 = 0` in the
  exact model; the places where the source can meet a float division by
  zero or a NaN are modelled separately and exactly where a claim needs
  them (`F64`, `printTrace`);
* the source's `np.isnan` clamp in `compute_s_measure` has no analogue in
  exact arithmetic (no NaN can arise), so only the `q < 0` clamp remains.
-/

namespace EGnet

/-- A 2-D image: a list of rows of exact rational pixel intensities. -/
abbrev Img := List (List ℚ)

namespace Img

/-- Number of rows (`shape[0]`). -/
def rows (a : Img) : ℕ := a.length

/-- Number of columns (`shape[1]`); numpy arrays are rectangular, so the
first row's length represents the column count. -/
def cols (a : Img) : ℕ := (a.headD []).length

/-- The numpy `shape` tuple of a 2-D array. -/
def shape (a : Img) : ℕ × ℕ := (rows a, cols a)

/-- Total number of pixels, `shape[0] * shape[1]`. -/
def size (a : Img) : ℕ := rows a * cols a

/-- Sum of all entries, `np.sum` / `ndarray.sum()`. -/
def sum (a : Img) : ℚ := (a.map List.sum).sum

/-- Arithmetic mean of all entries, `ndarray.mean()` (sum divided by
`size`; the empty case follows the `x / 0 = 0` convention). -/
def mean (a : Img) : ℚ := sum a / (size a : ℚ)

/-- Number of entries satisfying a predicate (the sum of a 0/1 indicator
array such as `a[pred > th] = 1`). -/
def countP (p : ℚ → Bool) (a : Img) : ℕ := (a.map (List.countP p)).sum

/-- Number of positions where a binary predicate on corresponding entries
of two images holds (`np.sum(np.bitwise_and(a, b))` for indicator arrays). -/
def countP2 (p : ℚ → ℚ → Bool) (a b : Img) : ℕ :=
  (List.zipWith (fun r s => (List.zipWith (fun x y => p x y) r s).count true) a b).sum

/-- Elementwise combination of two images of equal shape. -/
def map2 (f : ℚ → ℚ → ℚ) (a b : Img) : Img := List.zipWith (List.zipWith f) a b

/-- Multiply every entry by a constant (`pred / 255.0` is `scale (1/255)`). -/
def scale (c : ℚ) (a : Img) : Img := a.map (List.map (fun v => c * v))

/-- Elementwise map. -/
def emap (f : ℚ → ℚ) (a : Img) : Img := a.map (List.map f)

/-- Rectangularity: every row has the column count.  Genuine numpy 2-D
arrays always satisfy this. -/
def rect (a : Img) : Prop := ∀ r ∈ a, r.length = cols a

instance (a : Img) : Decidable (rect a) := by unfold rect; infer_instance

/-- A valid image: rectangular with intensities in the 0–255 range. -/
def valid (a : Img) : Prop := rect a ∧ ∀ r ∈ a, ∀ v ∈ r, 0 ≤ v ∧ v ≤ 255

instance (a : Img) : Decidable (valid a) := by unfold valid; infer_instance

end Img

/-- Python's `round` / numpy's `np.round`: round half to even. -/
def pyRound (q : ℚ) : ℤ :=
  let f := ⌊q⌋
  let r := q - f
  if r < 1/2 then f
  else if 1/2 < r then f + 1
  else if f % 2 = 0 then f else f + 1

/-- `self.epsilon = 1e-4` from `Metric.__init__`. -/
def eps : ℚ := 1/10000

/-- `self.beta = 0.3` from `Metric.__init__` (the β² of the F-measure). -/
def beta : ℚ := 3/10

/-- `self.thresholds = 256` from `Metric.__init__`. -/
def thresholds : ℕ := 256

/-- The accumulator state of class `Metric`: `self.mae`, `self.precision`,
`self.recall`, `self.q` (the S-measure sum) and `self.cnt`. -/
structure Metric where
  mae : ℚ
  precision : List ℚ
  «recall» : List ℚ
  q : ℚ
  cnt : ℕ
deriving DecidableEq, Repr

/-- The state built by `Metric.__init__`: zero sums, `np.zeros(256)`
vectors, zero count. -/
def initMetric : Metric :=
  { mae := 0
    precision := List.replicate thresholds 0
    «recall» := List.replicate thresholds 0
    q := 0
    cnt := 0 }

/-- Count of predicted-positive pixels at threshold `th`:
`a[pred > th] = 1; a_sum = np.sum(a)` (the raw 0–255 `pred` against the
integer threshold). -/
def aCount (pred : Img) (th : ℕ) : ℕ := Img.countP (fun v => decide ((th : ℚ) < v)) pred

/-- Count of ground-truth-positive pixels at threshold `th`:
`b[gt > th / self.thresholds] = 1; b_sum = np.sum(b)`.  Note that `update`
passes the raw 0–255 `gt` here, so the raw values are compared with
`th / 256`. -/
def bCount (gt : Img) (th : ℕ) : ℕ :=
  Img.countP (fun v => decide ((th : ℚ) / (thresholds : ℚ) < v)) gt

/-- True-positive count at threshold `th`:
`ab = np.sum(np.bitwise_and(a, b))`. -/
def abCount (pred gt : Img) (th : ℕ) : ℕ :=
  Img.countP2
    (fun v w => decide ((th : ℚ) < v) && decide ((th : ℚ) / (thresholds : ℚ) < w)) pred gt

/-- Per-image precision contribution at threshold `th`:
`(ab + self.epsilon) / (a_sum + self.epsilon)`. -/
def precInc (pred gt : Img) (th : ℕ) : ℚ :=
  ((abCount pred gt th : ℚ) + eps) / ((aCount pred th : ℚ) + eps)

/-- Per-image recall contribution at threshold `th`:
`(ab + self.epsilon) / (b_sum + self.epsilon)`. -/
def recInc (pred gt : Img) (th : ℕ) : ℚ :=
  ((abCount pred gt th : ℚ) + eps) / ((bCount gt th : ℚ) + eps)

/-- Per-image MAE contribution, `np.abs(pred - gt).mean()` on the
normalized images (`Metric.compute_mae`). -/
def maeInc (pred gt : Img) : ℚ := Img.mean (Img.map2 (fun x y => |x - y|) pred gt)

/-- In-place binarization of the normalized ground truth:
`gt[gt >= 0.5] = 1; gt[gt < 0.5] = 0`. -/
def binarize05 (g : Img) : Img := Img.emap (fun v => if 1/2 ≤ v then 1 else 0) g

/-- The flattened fancy-indexing selection `pred[gt == c]`. -/
def maskVals (pred gt : Img) (c : ℚ) : List ℚ :=
  (List.zipWith
    (fun pr gr => (pr.zip gr).filterMap (fun vw => if vw.2 = c then some vw.1 else none))
    pred gt).flatten

/-- `Metric._object`: mean and standard deviation of `pred[gt == 1]`,
scored as `2x / (x² + 1 + σ + 1e-20)`; returns 0 on an empty selection.
`np.std` is the square root of the population variance; `sq` stands for
the square root. -/
def objectScore (sq : ℚ → ℚ) (pred gt : Img) : ℚ :=
  let temp := maskVals pred gt 1
  if temp.length = 0 then 0
  else
    let x := temp.sum / (temp.length : ℚ)
    let sigma := sq ((temp.map (fun v => (v - x) * (v - x))).sum / (temp.length : ℚ))
    2 * x / (x * x + 1 + sigma + 1/10^20)

/-- `fg = np.where(gt == 0, np.zeros_like(pred), pred)`. -/
def fgImg (pred gt : Img) : Img := Img.map2 (fun p g => if g = 0 then 0 else p) pred gt

/-- `bg = np.where(gt == 1, np.zeros_like(pred), 1 - pred)`. -/
def bgImg (pred gt : Img) : Img := Img.map2 (fun p g => if g = 1 then 0 else 1 - p) pred gt

/-- The array `1 - gt`. -/
def oneMinus (a : Img) : Img := Img.emap (fun v => 1 - v) a

/-- `Metric._s_object`: object-level similarity
`u * o_fg + (1 - u) * o_bg` with `u = gt.mean()`. -/
def sObject (sq : ℚ → ℚ) (pred gt : Img) : ℚ :=
  let fg := fgImg pred gt
  let bg := bgImg pred gt
  let oFg := objectScore sq fg gt
  let oBg := objectScore sq bg (oneMinus gt)
  let u := Img.mean gt
  u * oFg + (1 - u) * oBg

/-- `Metric._centroid`: geometric center for an all-zero mask, else the
rounded intensity-weighted centroid, returned as `(x, y)` integer pixel
indices (`astype(np.int64)` of already integral values). -/
def centroid (gt : Img) : ℤ × ℤ :=
  let rows := Img.rows gt
  let cols := Img.cols gt
  if Img.sum gt = 0 then
    (pyRound ((cols : ℚ) / 2), pyRound ((rows : ℚ) / 2))
  else
    let total := Img.sum gt
    let colSums := (List.range cols).map (fun j => (gt.map (fun r => r.getD j 0)).sum)
    let rowSums := gt.map List.sum
    let x := pyRound
      ((List.zipWith (fun s i => s * i) colSums ((List.range cols).map (Nat.cast))).sum / total)
    let y := pyRound
      ((List.zipWith (fun s j => s * j) rowSums ((List.range rows).map (Nat.cast))).sum / total)
    (x, y)

/-- The slice `a[r1:r2, c1:c2]` for nonnegative bounds. -/
def sliceImg (a : Img) (r1 r2 c1 c2 : ℕ) : Img :=
  ((a.drop r1).take (r2 - r1)).map (fun row => (row.drop c1).take (c2 - c1))

/-- `Metric._divide_gt`: the four quadrant slices of `gt` at the centroid
together with the area weights `w1..w4` (`w4 = 1 - w1 - w2 - w3`). -/
def divideGt (gt : Img) (x y : ℤ) : Img × Img × Img × Img × ℚ × ℚ × ℚ × ℚ :=
  let h := Img.rows gt
  let w := Img.cols gt
  let area : ℚ := (h : ℚ) * (w : ℚ)
  let x' := x.toNat
  let y' := y.toNat
  let lt := sliceImg gt 0 y' 0 x'
  let rt := sliceImg gt 0 y' x' w
  let lb := sliceImg gt y' h 0 x'
  let rb := sliceImg gt y' h x' w
  let w1 := (x : ℚ) * (y : ℚ) / area
  let w2 := ((w : ℚ) - (x : ℚ)) * (y : ℚ) / area
  let w3 := (x : ℚ) * ((h : ℚ) - (y : ℚ)) / area
  let w4 := 1 - w1 - w2 - w3
  (lt, rt, lb, rb, w1, w2, w3, w4)

/-- `Metric._divide_prediction`: the four quadrant slices of `pred`. -/
def dividePrediction (pred : Img) (x y : ℤ) : Img × Img × Img × Img :=
  let h := Img.rows pred
  let w := Img.cols pred
  let x' := x.toNat
  let y' := y.toNat
  (sliceImg pred 0 y' 0 x', sliceImg pred 0 y' x' w,
   sliceImg pred y' h 0 x', sliceImg pred y' h x' w)

/-- `Metric._ssim`: the SSIM-like score of a quadrant pair, with unbiased
variances guarded by `1e-20` and the `alpha`/`beta` case split of the
source. -/
def ssim (pred gt : Img) : ℚ :=
  let h := Img.rows pred
  let w := Img.cols pred
  let n : ℚ := ((h * w : ℕ) : ℚ)
  let x := Img.mean pred
  let y := Img.mean gt
  let sigmaX2 := (Img.sum (Img.emap (fun v => (v - x) * (v - x)) pred)) / (n - 1 + 1/10^20)
  let sigmaY2 := (Img.sum (Img.emap (fun v => (v - y) * (v - y)) gt)) / (n - 1 + 1/10^20)
  let sigmaXY := (Img.sum (Img.map2 (fun v u => (v - x) * (u - y)) pred gt)) / (n - 1 + 1/10^20)
  let a := 4 * x * y * sigmaXY
  let b := (x * x + y * y) * (sigmaX2 + sigmaY2)
  if a ≠ 0 then a / (b + 1/10^20)
  else if b = 0 then 1 else 0

/-- `Metric._s_region`: centroid, quadrant split, and the weighted sum of
the four quadrant SSIM scores. -/
def sRegion (pred gt : Img) : ℚ :=
  let c := centroid gt
  let d := divideGt gt c.1 c.2
  let p := dividePrediction pred c.1 c.2
  let q1 := ssim p.1 d.1
  let q2 := ssim p.2.1 d.2.1
  let q3 := ssim p.2.2.1 d.2.2.1
  let q4 := ssim p.2.2.2 d.2.2.2.1
  d.2.2.2.2.1 * q1 + d.2.2.2.2.2.1 * q2 + d.2.2.2.2.2.2.1 * q3 + d.2.2.2.2.2.2.2 * q4

/-- The value added to `self.q` by `Metric.compute_s_measure` on the
normalized pair: the degenerate branches for an all-zero / all-one mean,
else the clamped combination `0.5 * S_object + 0.5 * S_region` on the
ground truth binarized at `0.5`. -/
def sVal (sq : ℚ → ℚ) (pred gt : Img) : ℚ :=
  let y := Img.mean gt
  if y = 0 then 1 - Img.mean pred
  else if y = 1 then Img.mean pred
  else
    let g := binarize05 gt
    let q := (1/2) * sObject sq pred g + (1 - 1/2) * sRegion pred g
    if q < 0 then 0 else q

/-- `Metric.update` after the shape assertion has passed: normalizes the
images, adds the MAE, precision/recall and S-measure contributions, and
increments the count.  The sweep reads the raw images, MAE and S-measure
the normalized ones. -/
def update (sq : ℚ → ℚ) (m : Metric) (pred gt : Img) : Metric :=
  let normPred := Img.scale (1/255) pred
  let normGt := Img.scale (1/255) gt
  { mae := m.mae + maeInc normPred normGt
    precision := (List.range thresholds).map (fun th => m.precision.getD th 0 + precInc pred gt th)
    «recall» := (List.range thresholds).map (fun th => m.recall.getD th 0 + recInc pred gt th)
    q := m.q + sVal sq normPred normGt
    cnt := m.cnt + 1 }

/-- The error conditions of the engine. -/
inductive EvalErr where
  | shapeMismatch
  | zeroDivision
deriving DecidableEq, Repr

/-- `Metric.update` with its entry assertion `assert pred.shape == gt.shape`
made explicit: the resulting accumulator state paired with the raised
error, if any.  The assertion fires before any numeric work, so on a
mismatch the caller's `Metric` object is returned unchanged. -/
def updatePy (sq : ℚ → ℚ) (m : Metric) (pred gt : Img) : Metric × Option EvalErr :=
  if Img.shape pred = Img.shape gt then (update sq m pred gt, none)
  else (m, some EvalErr.shapeMismatch)

/-- Feeding a sequence of image pairs to an accumulator, one `update` per
pair. -/
def runAcc (sq : ℚ → ℚ) (m : Metric) (l : List (Img × Img)) : Metric :=
  l.foldl (fun acc pg => update sq acc pg.1 pg.2) m

/-- Merging two accumulators by summing corresponding fields (spec §5). -/
def merge (m1 m2 : Metric) : Metric :=
  { mae := m1.mae + m2.mae
    precision := List.zipWith (· + ·) m1.precision m2.precision
    «recall» := List.zipWith (· + ·) m1.recall m2.recall
    q := m1.q + m2.q
    cnt := m1.cnt + m2.cnt }

/-- Per-threshold F-measure combination of `Metric.print_result`:
`(1 + self.beta) * (p * r) / (self.beta * p + r)`. -/
def fM (p r : ℚ) : ℚ := (1 + beta) * (p * r) / (beta * p + r)

/-- Helper of `np.argmax`: first index of the maximum, scanning left to
right and updating only on a strict increase. -/
def argmaxAux : List ℚ → ℕ → ℚ → ℕ → ℕ
  | [], _, _, bi => bi
  | v :: rest, i, bv, bi =>
    if bv < v then argmaxAux rest (i + 1) v i else argmaxAux rest (i + 1) bv bi

/-- `np.argmax` on a list of rationals (first index attaining the maximum). -/
def argmaxQ (l : List ℚ) : ℕ := argmaxAux l 0 (l.headD 0) 0

/-- The values reported by `Metric.print_result` (the maximizing index is
computed as `argmax` even though only the five scalars are printed). -/
structure Report where
  idx : ℕ
  maxF : ℚ
  precAt : ℚ
  recAt : ℚ
  maeAvg : ℚ
  sAvg : ℚ
deriving DecidableEq, Repr

/-- `Metric.print_result`: F over the raw sums, `argmax`, then division of
each printed value by `self.cnt`. -/
def printResult (m : Metric) : Report :=
  let f := List.zipWith fM m.precision m.recall
  let am := argmaxQ f
  { idx := am
    maxF := f.getD am 0 / (m.cnt : ℚ)
    precAt := m.precision.getD am 0 / (m.cnt : ℚ)
    recAt := m.recall.getD am 0 / (m.cnt : ℚ)
    maeAvg := m.mae / (m.cnt : ℚ)
    sAvg := m.q / (m.cnt : ℚ) }

/-- Reference report following the spec's words (§4.5): first average the
precision/recall sums by `count`, then form `F_th` over the averages,
maximize, and read the report off the averaged curves. -/
def reportSpec (m : Metric) : Report :=
  let c : ℚ := (m.cnt : ℚ)
  let pbar := m.precision.map (fun p => p / c)
  let rbar := m.recall.map (fun r => r / c)
  let f := List.zipWith fM pbar rbar
  let am := argmaxQ f
  { idx := am
    maxF := f.getD am 0
    precAt := pbar.getD am 0
    recAt := rbar.getD am 0
    maeAvg := m.mae / c
    sAvg := m.q / c }

/-- An IEEE-754 double as produced by numpy arithmetic on the reporting
path: a finite value (kept exact), NaN, or a signed infinity. -/
inductive F64 where
  | fin : ℚ → F64
  | nan : F64
  | inf : Bool → F64
deriving DecidableEq, Repr

/-- IEEE addition as numpy performs it. -/
def npAdd : F64 → F64 → F64
  | .fin a, .fin b => .fin (a + b)
  | .nan, _ => .nan
  | _, .nan => .nan
  | .inf p, .fin _ => .inf p
  | .fin _, .inf p => .inf p
  | .inf p, .inf r => if p = r then .inf p else .nan

/-- IEEE multiplication as numpy performs it. -/
def npMul : F64 → F64 → F64
  | .fin a, .fin b => .fin (a * b)
  | .nan, _ => .nan
  | _, .nan => .nan
  | .inf p, .fin a => if a = 0 then .nan else .inf (p = decide (0 < a))
  | .fin a, .inf p => if a = 0 then .nan else .inf (p = decide (0 < a))
  | .inf p, .inf r => .inf (p = r)

/-- IEEE division as numpy performs it: finite / 0 is NaN for a zero
numerator and a signed infinity otherwise — numpy emits only a
`RuntimeWarning`, no exception. -/
def npDiv : F64 → F64 → F64
  | .nan, _ => .nan
  | _, .nan => .nan
  | .fin a, .fin b =>
    if b = 0 then (if a = 0 then .nan else .inf (decide (0 < a))) else .fin (a / b)
  | .fin _, .inf _ => .fin 0
  | .inf p, .fin b => .inf (p = decide (0 ≤ b))
  | .inf _, .inf _ => .nan

/-- Whether a candidate beats the running maximum during `np.argmax`:
comparisons propagate NaN as maximal (numpy returns the first NaN index)
and a NaN running maximum is never displaced. -/
def npBeats : F64 → F64 → Bool
  | _, .nan => false
  | .nan, _ => true
  | .fin a, .fin b => decide (b < a)
  | .inf p, .fin _ => p
  | .fin _, .inf p => !p
  | .inf p, .inf r => p && !r

/-- Helper of `np.argmax` over IEEE values. -/
def argmaxFAux : List F64 → ℕ → F64 → ℕ → ℕ
  | [], _, _, bi => bi
  | v :: rest, i, bv, bi =>
    if npBeats v bv then argmaxFAux rest (i + 1) v i else argmaxFAux rest (i + 1) bv bi

/-- `np.argmax` over IEEE values (first index attaining the maximum, NaN
treated as maximal). -/
def argmaxF (l : List F64) : ℕ := argmaxFAux l 0 (l.headD (.fin 0)) 0

/-- The per-threshold F-measure array of `Metric.print_result` computed in
IEEE arithmetic over the accumulated (finite, exact) sums. -/
def fMeasureF (m : Metric) : List F64 :=
  List.zipWith
    (fun p r =>
      npDiv (npMul (.fin (1 + beta)) (npMul (.fin p) (.fin r)))
        (npAdd (npMul (.fin beta) (.fin p)) (.fin r)))
    m.precision m.recall

/-- `Metric.print_result` traced line by line with Python/numpy division
semantics: the list of values printed before any exception, paired with
the exception if one is raised.  The first three printed lines divide
numpy float64 scalars by the Python int `self.cnt`, which numpy turns
into NaN/inf with only a warning when `cnt == 0`; the MAE line divides
`self.mae` by `self.cnt`, and in any reachable state with `cnt == 0` the
attribute `self.mae` is still the Python int literal `0` from `__init__`
(the first `update` would have turned it into a numpy float), so that
line is an int/int `0/0` and raises `ZeroDivisionError`. -/
def printTrace (m : Metric) : List F64 × Option EvalErr :=
  let f := fMeasureF m
  let am := argmaxF f
  let line1 := npDiv (f.getD am .nan) (.fin (m.cnt : ℚ))
  let line2 := npDiv (.fin (m.precision.getD am 0)) (.fin (m.cnt : ℚ))
  let line3 := npDiv (.fin (m.recall.getD am 0)) (.fin (m.cnt : ℚ))
  if m.cnt = 0 then ([line1, line2, line3], some EvalErr.zeroDivision)
  else
    ([line1, line2, line3, npDiv (.fin m.mae) (.fin (m.cnt : ℚ)),
      npDiv (.fin m.q) (.fin (m.cnt : ℚ))], none)

/-- A heap of numpy arrays; caller-owned arrays are referenced by index. -/
abbrev Heap := List Img

/-- `Metric.update` with the array store made explicit, to track aliasing
and in-place mutation.  `pred.astype(np.float32)` and
`gt.astype(np.float32)` allocate fresh copies (indices `n`, `n+1`),
`pred / 255.0` and `gt / 255.0` allocate the normalized arrays (indices
`n+2`, `n+3`), and `compute_s_measure` binarizes its `gt` argument — the
normalized copy at `n+3` — in place when neither degenerate branch is
taken.  The metric fields are computed from the copied values, which equal
the caller's values. -/
def updateHeap (sq : ℚ → ℚ) (h : Heap) (m : Metric) (pR gR : ℕ) : Heap × Metric :=
  let pred0 := h.getD pR []
  let gt0 := h.getD gR []
  let n := h.length
  let normGt := Img.scale (1/255) gt0
  let h2 := h ++ [pred0, gt0, Img.scale (1/255) pred0, normGt]
  let h3 :=
    if Img.mean normGt = 0 ∨ Img.mean normGt = 1 then h2
    else h2.set (n + 3) (binarize05 normGt)
  (h3, update sq m pred0 gt0)

/-- The binarization comparison of the sweep exactly as the source applies
it, on the raw 0–255 ground truth (spec-facing restatement): the count of
pixels whose raw value exceeds `th / 256`, over the flattened image. -/
def bCountRawSpec (gt : Img) (th : ℕ) : ℕ :=
  gt.flatten.countP (fun v => decide ((th : ℚ) / 256 < v))

/-- The claim's reading of the sweep binarization: the count of pixels
whose normalized (divided-by-255) value exceeds `th / 256`. -/
def bCountNormSpec (gt : Img) (th : ℕ) : ℕ :=
  gt.flatten.countP (fun v => decide ((th : ℚ) / 256 < v / 255))

/-- The predicted-positive count restated over the flattened image: raw
`pred` compared with the integer threshold itself. -/
def aCountRawSpec (pred : Img) (th : ℕ) : ℕ :=
  pred.flatten.countP (fun v => decide ((th : ℚ) < v))

/-- Per-column sums of a mask, `gt.sum(axis=0)` at column `j`. -/
def colSum (gt : Img) (j : ℕ) : ℚ := (gt.map (fun r => r.getD j 0)).sum

/-- Per-row sums of a mask, `gt.sum(axis=1)` at row `i`. -/
def rowSum (gt : Img) (i : ℕ) : ℚ := (gt.getD i []).sum

/-- Reference centroid following the spec's words (§4.3): the geometric
center `(round(W/2), round(H/2))` for a mask summing to zero, else the
rounded intensity-weighted centroid
`x₀ = round(Σ_col(colSum·colIndex)/total)`,
`y₀ = round(Σ_row(rowSum·rowIndex)/total)` with integer indices
`0..W-1` / `0..H-1`, as integer pixel indices. -/
def centroidSpec (gt : Img) : ℤ × ℤ :=
  let hh := Img.rows gt
  let ww := Img.cols gt
  if Img.sum gt = 0 then (pyRound ((ww : ℚ) / 2), pyRound ((hh : ℚ) / 2))
  else
    let total := Img.sum gt
    (pyRound ((∑ j ∈ Finset.range ww, colSum gt j * (j : ℚ)) / total),
     pyRound ((∑ i ∈ Finset.range hh, rowSum gt i * (i : ℚ)) / total))

/-! ### General list helper lemmas -/

lemma sum_range_map (n : ℕ) (f : ℕ → ℚ) :
    ((List.range n).map f).sum = ∑ i ∈ Finset.range n, f i := by
  induction n with
  | zero => simp
  | succ k ih =>
    rw [List.range_succ, List.map_append, List.sum_append, Finset.sum_range_succ, ih]
    simp

lemma zipWith_map_same {α β γ δ : Type _} (f : β → γ → δ) (g : α → β) (h : α → γ)
    (l : List α) : List.zipWith f (l.map g) (l.map h) = l.map (fun a => f (g a) (h a)) := by
  induction l with
  | nil => rfl
  | cons a t ih => simp [ih]

lemma map_eq_range_map (f : List ℚ → ℚ) (l : List (List ℚ)) :
    l.map f = (List.range l.length).map (fun i => f (l.getD i [])) := by
  apply List.ext_getElem
  · simp
  · intro i h1 h2
    simp only [List.getElem_map, List.getElem_range]
    rw [List.getD_eq_getElem]

lemma getD_range_map (n : ℕ) (f : ℕ → ℚ) (i : ℕ) (h : i < n) :
    ((List.range n).map f).getD i 0 = f i := by
  rw [List.getD_eq_getElem _ _ (by simpa using h)]
  simp

lemma countP_flatten_eq (p : ℚ → Bool) (a : Img) :
    Img.countP p a = a.flatten.countP p := by
  rw [Img.countP, List.countP_flatten]

/-! ### C9: the centroid computation -/

/-- C9.  For every 2-D mask, `_centroid` returns the geometric center
`(round(W/2), round(H/2))` when the mask sums to zero and otherwise the
rounded intensity-weighted centroid with integer indices, exactly as the
spec's reference formula states. -/
theorem centroid_matches_spec (gt : Img) : centroid gt = centroidSpec gt := by
  unfold centroid centroidSpec
  by_cases h : Img.sum gt = 0
  · simp [h]
  · simp only [h, if_false]
    have hx :
        (List.zipWith (fun s i => s * i)
            ((List.range (Img.cols gt)).map (fun j => (gt.map (fun r => r.getD j 0)).sum))
            ((List.range (Img.cols gt)).map (Nat.cast))).sum
          = ∑ j ∈ Finset.range (Img.cols gt), colSum gt j * (j : ℚ) := by
      rw [zipWith_map_same, sum_range_map]
      rfl
    have hy :
        (List.zipWith (fun s j => s * j) (gt.map List.sum)
            ((List.range (Img.rows gt)).map (Nat.cast))).sum
          = ∑ i ∈ Finset.range (Img.rows gt), rowSum gt i * (i : ℚ) := by
      have hrows : Img.rows gt = gt.length := rfl
      rw [map_eq_range_map List.sum gt, hrows, zipWith_map_same, sum_range_map]
      rfl
    rw [hx, hy]

/-! ### C3: what the sweep compares the ground truth against -/

/-- C3 counterexample.  At threshold 2, for the 1×1 ground truth of raw
value 1, the sweep's ground-truth-positive count (raw value against
`th/256`) differs from the count of pixels whose normalized value exceeds
`th/256`: the code counts 1, the claim's reading counts 0. -/
theorem sweep_gt_binarization_cex :
    ¬ bCount [[(1 : ℚ)]] 2 = bCountNormSpec [[(1 : ℚ)]] 2 := by
  have h1 : bCount [[(1 : ℚ)]] 2 = 1 := by
    unfold bCount Img.countP thresholds
    norm_num [List.countP_cons]
  have h2 : bCountNormSpec [[(1 : ℚ)]] 2 = 0 := by
    unfold bCountNormSpec
    norm_num [List.countP_cons]
  omega

/-- C3 amended.  In the sweep, `pred` is binarized by comparing its raw
0–255 values with the integer threshold `th`, and the ground truth is
binarized by comparing its **raw** 0–255 values (not the normalized ones:
`update` passes the un-normalized `gt`) with `th/256`; the positive counts
equal the counts of flattened pixels exceeding those bounds. -/
theorem sweep_binarization_raw (pred gt : Img) (th : ℕ) :
    aCount pred th = aCountRawSpec pred th ∧ bCount gt th = bCountRawSpec gt th := by
  constructor
  · rw [aCount, countP_flatten_eq, aCountRawSpec]
  · rw [bCount, countP_flatten_eq, bCountRawSpec]
    simp [thresholds]

/-! ### C7: the shape assertion of `update` -/

/-- C7.  A shape mismatch makes `update` raise `ShapeMismatch` before any
numeric work, with the accumulator state left exactly unchanged by the
failed call, while for equal shapes no shape error is raised and the count
grows by exactly one. -/
theorem update_shape_contract (sq : ℚ → ℚ) (m : Metric) (pred gt : Img) :
    (Img.shape pred ≠ Img.shape gt →
      updatePy sq m pred gt = (m, some EvalErr.shapeMismatch))
    ∧ (Img.shape pred = Img.shape gt →
      updatePy sq m pred gt = (update sq m pred gt, none)
      ∧ (update sq m pred gt).cnt = m.cnt + 1) := by
  constructor
  · intro h
    simp [updatePy, h]
  · intro h
    exact ⟨by simp [updatePy, h], rfl⟩

/-- Witness for C7 at concrete inputs: a 1×1 against a 2×1 pair errors
out leaving the state unchanged, and a matching 1×1 pair is accepted with
the count incremented. -/
theorem update_shape_contract_witness :
    updatePy (fun v => v) initMetric [[0]] [[0], [0]]
        = (initMetric, some EvalErr.shapeMismatch)
    ∧ updatePy (fun v => v) initMetric [[0]] [[0]] =
        (update (fun v => v) initMetric [[0]] [[0]], none)
    ∧ (update (fun v => v) initMetric [[0]] [[0]]).cnt = initMetric.cnt + 1 :=
  ⟨(update_shape_contract (fun v => v) initMetric [[0]] [[0], [0]]).1 (by decide),
   ((update_shape_contract (fun v => v) initMetric [[0]] [[0]]).2 rfl).1,
   ((update_shape_contract (fun v => v) initMetric [[0]] [[0]]).2 rfl).2⟩

/-! ### C5: the accumulator's merge algebra -/

/-- Well-formedness maintained by the engine: the precision and recall
vectors have length 256 (`np.zeros(256)`). -/
def wfM (m : Metric) : Prop :=
  m.precision.length = thresholds ∧ m.recall.length = thresholds

lemma wf_init : wfM initMetric := by
  constructor <;> simp [initMetric]

lemma wf_update (sq : ℚ → ℚ) (m : Metric) (p g : Img) : wfM (update sq m p g) := by
  constructor <;> simp [update]

lemma wf_merge {m1 m2 : Metric} (h1 : wfM m1) (h2 : wfM m2) : wfM (merge m1 m2) := by
  constructor <;> simp [merge, h1.1, h1.2, h2.1, h2.2]

lemma wf_run (sq : ℚ → ℚ) (l : List (Img × Img)) :
    ∀ m : Metric, wfM m → wfM (runAcc sq m l) := by
  induction l with
  | nil => intro m h; exact h
  | cons y t ih =>
    intro m h
    exact ih (update sq m y.1 y.2) (wf_update sq m y.1 y.2)

lemma update_merge (sq : ℚ → ℚ) (m1 m2 : Metric) (p g : Img)
    (h1 : wfM m1) (h2 : wfM m2) :
    update sq (merge m1 m2) p g = merge m1 (update sq m2 p g) := by
  unfold update merge
  simp only [Metric.mk.injEq]
  refine ⟨by ring, ?_, ?_, by ring, by omega⟩
  · apply List.ext_getElem
    · simp [h1.1, h2.1]
    · intro i hL hR
      have hi : i < thresholds := by simpa using hL
      have hi1 : i < m1.precision.length := by rw [h1.1]; exact hi
      have hi2 : i < m2.precision.length := by rw [h2.1]; exact hi
      simp only [List.getElem_map, List.getElem_range, List.getElem_zipWith]
      rw [List.getD_eq_getElem _ _ (by simp; omega), List.getD_eq_getElem _ _ hi2,
        List.getElem_zipWith]
      ring
  · apply List.ext_getElem
    · simp [h1.2, h2.2]
    · intro i hL hR
      have hi : i < thresholds := by simpa using hL
      have hi1 : i < m1.recall.length := by rw [h1.2]; exact hi
      have hi2 : i < m2.recall.length := by rw [h2.2]; exact hi
      simp only [List.getElem_map, List.getElem_range, List.getElem_zipWith]
      rw [List.getD_eq_getElem _ _ (by simp; omega), List.getD_eq_getElem _ _ hi2,
        List.getElem_zipWith]
      ring

lemma run_merge (sq : ℚ → ℚ) (ys : List (Img × Img)) :
    ∀ (m1 m2 : Metric), wfM m1 → wfM m2 →
      runAcc sq (merge m1 m2) ys = merge m1 (runAcc sq m2 ys) := by
  induction ys with
  | nil => intro m1 m2 _ _; rfl
  | cons y t ih =>
    intro m1 m2 h1 h2
    show runAcc sq (update sq (merge m1 m2) y.1 y.2) t = _
    rw [update_merge sq m1 m2 y.1 y.2 h1 h2]
    exact ih m1 (update sq m2 y.1 y.2) h1 (wf_update sq m2 y.1 y.2)

lemma zipWith_add_zeros (l : List ℚ) :
    List.zipWith (· + ·) l (List.replicate l.length 0) = l := by
  induction l with
  | nil => rfl
  | cons a t ih => simp [List.replicate_succ, ih]

lemma merge_init_right (m : Metric) (h : wfM m) : merge m initMetric = m := by
  obtain ⟨mae, prec, rec, q, cnt⟩ := m
  have hp : prec.length = thresholds := h.1
  have hr : rec.length = thresholds := h.2
  unfold merge initMetric
  simp only [Metric.mk.injEq]
  refine ⟨by ring, ?_, ?_, by ring, by omega⟩
  · rw [← hp, zipWith_add_zeros]
  · rw [← hr, zipWith_add_zeros]

lemma zipWith_add_assoc (l1 l2 l3 : List ℚ) :
    List.zipWith (· + ·) (List.zipWith (· + ·) l1 l2) l3
      = List.zipWith (· + ·) l1 (List.zipWith (· + ·) l2 l3) := by
  induction l1 generalizing l2 l3 with
  | nil => rfl
  | cons a t ih =>
    cases l2 with
    | nil => rfl
    | cons b s =>
      cases l3 with
      | nil => rfl
      | cons c r => simp [ih, add_assoc]

lemma zipWith_add_comm (l1 l2 : List ℚ) :
    List.zipWith (· + ·) l1 l2 = List.zipWith (· + ·) l2 l1 := by
  induction l1 generalizing l2 with
  | nil => cases l2 <;> rfl
  | cons a t ih =>
    cases l2 with
    | nil => rfl
    | cons b s => simp [ih, add_comm]

/-- C5.  Feeding the concatenation of two sequences of image pairs to one
fresh accumulator produces exactly the state obtained by merging (summing
corresponding fields of) two fresh accumulators fed one half each — hence
the same report — and the merge is associative and commutative. -/
theorem merge_accumulators (sq : ℚ → ℚ) (xs ys : List (Img × Img)) :
    runAcc sq initMetric (xs ++ ys)
      = merge (runAcc sq initMetric xs) (runAcc sq initMetric ys)
    ∧ printResult (runAcc sq initMetric (xs ++ ys))
      = printResult (merge (runAcc sq initMetric xs) (runAcc sq initMetric ys))
    ∧ (∀ a b c : Metric, merge (merge a b) c = merge a (merge b c))
    ∧ (∀ a b : Metric, merge a b = merge b a) := by
  have h1 : wfM (runAcc sq initMetric xs) := wf_run sq xs initMetric wf_init
  have key : runAcc sq initMetric (xs ++ ys)
      = merge (runAcc sq initMetric xs) (runAcc sq initMetric ys) := by
    show List.foldl _ initMetric (xs ++ ys) = _
    rw [List.foldl_append]
    show runAcc sq (runAcc sq initMetric xs) ys = _
    conv_lhs => rw [← merge_init_right (runAcc sq initMetric xs) h1]
    exact run_merge sq ys (runAcc sq initMetric xs) initMetric h1 wf_init
  refine ⟨key, by rw [key], ?_, ?_⟩
  · intro a b c
    obtain ⟨a1, a2, a3, a4, a5⟩ := a
    obtain ⟨b1, b2, b3, b4, b5⟩ := b
    obtain ⟨c1, c2, c3, c4, c5⟩ := c
    unfold merge
    simp only [Metric.mk.injEq]
    exact ⟨by ring, zipWith_add_assoc _ _ _, zipWith_add_assoc _ _ _, by ring, by omega⟩
  · intro a b
    obtain ⟨a1, a2, a3, a4, a5⟩ := a
    obtain ⟨b1, b2, b3, b4, b5⟩ := b
    unfold merge
    simp only [Metric.mk.injEq]
    exact ⟨by ring, zipWith_add_comm _ _, zipWith_add_comm _ _, by ring, by omega⟩

/-! ### C6: non-negative increments -/

lemma zipWith_sum_nonneg (f : ℚ → ℚ → ℚ) (hf : ∀ x y, 0 ≤ f x y) :
    ∀ (r s : List ℚ), 0 ≤ (List.zipWith f r s).sum := by
  intro r
  induction r with
  | nil => intro s; simp
  | cons a t ih =>
    intro s
    cases s with
    | nil => simp
    | cons b u =>
      simp only [List.zipWith_cons_cons, List.sum_cons]
      exact add_nonneg (hf a b) (ih u)

lemma map2_sum_nonneg (f : ℚ → ℚ → ℚ) (hf : ∀ x y, 0 ≤ f x y) :
    ∀ (a b : Img), 0 ≤ Img.sum (Img.map2 f a b) := by
  intro a
  induction a with
  | nil => intro b; simp [Img.sum, Img.map2]
  | cons r t ih =>
    intro b
    cases b with
    | nil => simp [Img.sum, Img.map2]
    | cons s u =>
      simp only [Img.sum, Img.map2, List.zipWith_cons_cons, List.map_cons, List.sum_cons]
      exact add_nonneg (zipWith_sum_nonneg f hf r s) (ih u)

lemma maeInc_nonneg (p g : Img) : 0 ≤ maeInc p g := by
  unfold maeInc Img.mean
  exact div_nonneg (map2_sum_nonneg _ (fun x y => abs_nonneg (x - y)) p g) (Nat.cast_nonneg _)

lemma eps_pos : (0 : ℚ) < eps := by norm_num [eps]

lemma precInc_nonneg (p g : Img) (th : ℕ) : 0 ≤ precInc p g th := by
  unfold precInc
  exact div_nonneg (add_nonneg (Nat.cast_nonneg _) eps_pos.le)
    (add_nonneg (Nat.cast_nonneg _) eps_pos.le)

lemma recInc_nonneg (p g : Img) (th : ℕ) : 0 ≤ recInc p g th := by
  unfold recInc
  exact div_nonneg (add_nonneg (Nat.cast_nonneg _) eps_pos.le)
    (add_nonneg (Nat.cast_nonneg _) eps_pos.le)

lemma sum_nonneg_of_entries (a : Img) (h : ∀ r ∈ a, ∀ v ∈ r, 0 ≤ v) : 0 ≤ Img.sum a := by
  apply List.sum_nonneg
  intro x hx
  obtain ⟨r, hr, rfl⟩ := List.mem_map.mp hx
  exact List.sum_nonneg (h r hr)

lemma scale_mean_nonneg (p : Img) (h : ∀ r ∈ p, ∀ v ∈ r, 0 ≤ v) :
    0 ≤ Img.mean (Img.scale (1/255) p) := by
  unfold Img.mean
  apply div_nonneg _ (Nat.cast_nonneg _)
  apply sum_nonneg_of_entries
  intro r hr v hv
  obtain ⟨r0, hr0, rfl⟩ := List.mem_map.mp hr
  obtain ⟨v0, hv0, rfl⟩ := List.mem_map.mp hv
  have := (h r0 hr0 v0 hv0)
  positivity

lemma scale_sum_le_size (p : Img) (hp : Img.valid p) :
    Img.sum (Img.scale (1/255) p) ≤ (Img.size p : ℚ) := by
  unfold Img.sum Img.scale
  rw [List.map_map]
  have hrow : ∀ r ∈ p, (List.sum ∘ List.map (fun v => 1/255 * v)) r ≤ (Img.cols p : ℚ) := by
    intro r hr
    have hlen : r.length = Img.cols p := hp.1 r hr
    have hb : ∀ x ∈ r.map (fun v => 1/255 * v), x ≤ (1 : ℚ) := by
      intro x hx
      obtain ⟨v, hv, rfl⟩ := List.mem_map.mp hx
      have h255 := (hp.2 r hr v hv).2
      linarith
    have := List.sum_le_card_nsmul (r.map (fun v => 1/255 * v)) 1 hb
    simp only [List.length_map, nsmul_eq_mul, mul_one] at this
    calc (List.sum ∘ List.map (fun v => 1/255 * v)) r
        = (r.map (fun v => 1/255 * v)).sum := rfl
      _ ≤ (r.length : ℚ) := this
      _ = (Img.cols p : ℚ) := by rw [hlen]
  have := List.sum_le_card_nsmul (p.map (List.sum ∘ List.map (fun v => 1/255 * v)))
    ((Img.cols p : ℚ)) (by
      intro x hx
      obtain ⟨r, hr, rfl⟩ := List.mem_map.mp hx
      exact hrow r hr)
  simp only [List.length_map, nsmul_eq_mul] at this
  calc (p.map (List.sum ∘ List.map (fun v => 1/255 * v))).sum
      ≤ (p.length : ℚ) * (Img.cols p : ℚ) := this
    _ = (Img.size p : ℚ) := by
        unfold Img.size Img.rows
        push_cast
        ring

lemma scale_size (p : Img) : Img.size (Img.scale (1/255) p) = Img.size p := by
  unfold Img.size Img.rows Img.cols Img.scale
  cases p with
  | nil => rfl
  | cons r t => simp

lemma scale_mean_le_one (p : Img) (hp : Img.valid p) :
    Img.mean (Img.scale (1/255) p) ≤ 1 := by
  unfold Img.mean
  rw [scale_size]
  have hsum0 : 0 ≤ Img.sum (Img.scale (1/255) p) := by
    apply sum_nonneg_of_entries
    intro r hr v hv
    obtain ⟨r0, hr0, rfl⟩ := List.mem_map.mp hr
    obtain ⟨v0, hv0, rfl⟩ := List.mem_map.mp hv
    have := (hp.2 r0 hr0 v0 hv0).1
    positivity
  have hsum := scale_sum_le_size p hp
  rcases Nat.eq_zero_or_pos (Img.size p) with h0 | h0
  · rw [h0]
    have : Img.sum (Img.scale (1/255) p) = 0 := by
      apply le_antisymm _ hsum0
      simpa [h0] using hsum
    simp [this]
  · rw [div_le_one (by exact_mod_cast h0)]
    exact hsum

lemma sVal_nonneg (sq : ℚ → ℚ) (pred gt : Img)
    (h0 : 0 ≤ Img.mean pred) (h1 : Img.mean pred ≤ 1) : 0 ≤ sVal sq pred gt := by
  unfold sVal
  dsimp only
  split_ifs with hy hy1 hq
  · linarith
  · exact h0
  · exact le_refl 0
  · linarith

/-- C6.  On a valid prediction (rectangular, 0–255 intensities), every
`update` adds a non-negative increment to the MAE sum, the S-measure sum
(clamped before accumulation) and every entry of the precision and recall
vectors, so all four running sums are monotonically non-decreasing. -/
theorem update_monotone (sq : ℚ → ℚ) (m : Metric) (pred gt : Img)
    (hp : Img.valid pred) :
    m.mae ≤ (update sq m pred gt).mae
    ∧ m.q ≤ (update sq m pred gt).q
    ∧ (∀ th, th < thresholds →
        m.precision.getD th 0 ≤ (update sq m pred gt).precision.getD th 0)
    ∧ (∀ th, th < thresholds →
        m.recall.getD th 0 ≤ (update sq m pred gt).recall.getD th 0) := by
  refine ⟨?_, ?_, ?_, ?_⟩
  · exact le_add_of_nonneg_right (maeInc_nonneg _ _)
  · exact le_add_of_nonneg_right (sVal_nonneg sq _ _
      (scale_mean_nonneg pred (fun r hr v hv => (hp.2 r hr v hv).1))
      (scale_mean_le_one pred hp))
  · intro th hth
    have hpr : (update sq m pred gt).precision = (List.range thresholds).map
        (fun t => m.precision.getD t 0 + precInc pred gt t) := rfl
    rw [hpr, getD_range_map _ _ _ hth]
    exact le_add_of_nonneg_right (precInc_nonneg _ _ _)
  · intro th hth
    have hre : (update sq m pred gt).recall = (List.range thresholds).map
        (fun t => m.recall.getD t 0 + recInc pred gt t) := rfl
    rw [hre, getD_range_map _ _ _ hth]
    exact le_add_of_nonneg_right (recInc_nonneg _ _ _)

/-- Witness for C6 at a concrete valid input. -/
theorem update_monotone_witness :
    Img.valid [[255]]
    ∧ initMetric.mae ≤ (update (fun v => v) initMetric [[255]] [[0]]).mae
    ∧ initMetric.q ≤ (update (fun v => v) initMetric [[255]] [[0]]).q
    ∧ initMetric.precision.getD 0 0
        ≤ (update (fun v => v) initMetric [[255]] [[0]]).precision.getD 0 0
    ∧ initMetric.recall.getD 0 0
        ≤ (update (fun v => v) initMetric [[255]] [[0]]).recall.getD 0 0 :=
  ⟨by decide,
   (update_monotone (fun v => v) initMetric [[255]] [[0]] (by decide)).1,
   (update_monotone (fun v => v) initMetric [[255]] [[0]] (by decide)).2.1,
   (update_monotone (fun v => v) initMetric [[255]] [[0]] (by decide)).2.2.1 0 (by decide),
   (update_monotone (fun v => v) initMetric [[255]] [[0]] (by decide)).2.2.2 0 (by decide)⟩

/-! ### C1: the report over raw sums equals the spec's averaged report -/

lemma fM_div (c : ℚ) (hc : c ≠ 0) (p r : ℚ) : fM (p / c) (r / c) = fM p r / c := by
  unfold fM
  have hd : beta * (p / c) + r / c = (beta * p + r) / c := by
    rw [← mul_div_assoc, div_add_div_same]
  rcases eq_or_ne (beta * p + r) 0 with h0 | h0
  · rw [hd, h0]
    simp
  · have h0' : (beta * p + r) / c ≠ 0 := div_ne_zero h0 hc
    rw [hd]
    field_simp
    ring

lemma zipWith_fM_map (c : ℚ) (hc : c ≠ 0) :
    ∀ (p r : List ℚ),
      List.zipWith fM (p.map (fun x => x / c)) (r.map (fun x => x / c))
        = (List.zipWith fM p r).map (fun x => x / c) := by
  intro p
  induction p with
  | nil => intro r; rfl
  | cons a t ih =>
    intro r
    cases r with
    | nil => rfl
    | cons b u => simp [fM_div c hc, ih]

lemma argmaxAux_map_div (c : ℚ) (hc : 0 < c) :
    ∀ (l : List ℚ) (i bi : ℕ) (bv : ℚ),
      argmaxAux (l.map (fun x => x / c)) i (bv / c) bi = argmaxAux l i bv bi := by
  intro l
  induction l with
  | nil => intro i bi bv; rfl
  | cons v t ih =>
    intro i bi bv
    simp only [List.map_cons, argmaxAux]
    by_cases h : bv < v
    · rw [if_pos ((div_lt_div_iff_of_pos_right hc).mpr h), if_pos h, ih]
    · rw [if_neg (fun hlt => h ((div_lt_div_iff_of_pos_right hc).mp hlt)), if_neg h, ih]

lemma argmaxQ_map_div (c : ℚ) (hc : 0 < c) (l : List ℚ) :
    argmaxQ (l.map (fun x => x / c)) = argmaxQ l := by
  cases l with
  | nil => rfl
  | cons x t =>
    unfold argmaxQ
    simp only [List.map_cons, List.headD_cons]
    exact argmaxAux_map_div c hc (x :: t) 0 0 x

lemma getD_map_div (c : ℚ) (l : List ℚ) (i : ℕ) :
    (l.map (fun x => x / c)).getD i 0 = l.getD i 0 / c := by
  rcases lt_or_ge i l.length with h | h
  · rw [List.getD_eq_getElem _ _ (by simpa using h), List.getD_eq_getElem _ _ h,
      List.getElem_map]
  · rw [List.getD_eq_default _ _ (by simpa using h), List.getD_eq_default _ _ h, zero_div]

/-- C1.  For every accumulator with at least one processed image, the
report of `print_result` — F-measure formed over the raw precision/recall
sums, `argmax`, then division of each reported value by `cnt` — coincides
exactly with the spec's reference report in which the sums are first
averaged by `cnt` and `F_th` is formed over the averages. -/
theorem print_result_matches_spec (m : Metric) (h : 1 ≤ m.cnt) :
    reportSpec m = printResult m := by
  have hc : (0 : ℚ) < (m.cnt : ℚ) := by exact_mod_cast Nat.lt_of_lt_of_le Nat.zero_lt_one h
  have hcne : (m.cnt : ℚ) ≠ 0 := ne_of_gt hc
  unfold reportSpec printResult
  dsimp only
  rw [zipWith_fM_map _ hcne, argmaxQ_map_div _ hc, getD_map_div, getD_map_div, getD_map_div]

/-- Witness for C1 at a concrete accumulator with `cnt = 2`. -/
theorem print_result_matches_spec_witness :
    1 ≤ (Metric.mk 3 [1] [2] 5 2).cnt
    ∧ reportSpec (Metric.mk 3 [1] [2] 5 2) = printResult (Metric.mk 3 [1] [2] 5 2) :=
  ⟨by decide, print_result_matches_spec (Metric.mk 3 [1] [2] 5 2) (by decide)⟩

/-! ### C10: no mutation of caller-owned arrays -/

lemma getD_set_ne_heap (l : Heap) (i j : ℕ) (a : Img) (hne : i ≠ j) :
    (l.set i a).getD j [] = l.getD j [] := by
  simp [List.getD, List.getElem?_set_ne hne]

lemma getD_append_heap (l l' : Heap) (i : ℕ) (h : i < l.length) :
    (l ++ l').getD i [] = l.getD i [] :=
  List.getD_append l l' [] i h

/-- C10.  `update` never mutates the caller's arrays: both inputs are
copied (`astype(np.float32)`) on entry, the in-place binarization inside
`compute_s_measure` hits only the freshly allocated normalized copy, and
the heap cells referenced by the caller hold the same values afterwards;
the metric transition agrees with the pure `update` on the caller's
values. -/
theorem update_preserves_caller_arrays (sq : ℚ → ℚ) (h : Heap) (m : Metric)
    (pR gR : ℕ) (hp : pR < h.length) (hg : gR < h.length) :
    (updateHeap sq h m pR gR).1.getD pR [] = h.getD pR []
    ∧ (updateHeap sq h m pR gR).1.getD gR [] = h.getD gR []
    ∧ (updateHeap sq h m pR gR).2 = update sq m (h.getD pR []) (h.getD gR []) := by
  have happ : ∀ i, i < h.length →
      (h ++ [h.getD pR [], h.getD gR [], Img.scale (1/255) (h.getD pR []),
        Img.scale (1/255) (h.getD gR [])]).getD i [] = h.getD i [] := by
    intro i hi
    exact getD_append_heap _ _ i hi
  have hfst : ∀ i, i < h.length → (updateHeap sq h m pR gR).1.getD i [] = h.getD i [] := by
    intro i hi
    unfold updateHeap
    dsimp only
    split
    · exact happ i hi
    · rw [getD_set_ne_heap _ _ _ _ (by omega)]
      exact happ i hi
  exact ⟨hfst pR hp, hfst gR hg, rfl⟩

/-- Witness for C10 on a concrete two-array heap. -/
theorem update_preserves_caller_arrays_witness :
    (updateHeap (fun v => v) [[[255]], [[128]]] initMetric 0 1).1.getD 0 [] =
        ([[[255]], [[128]]] : Heap).getD 0 []
    ∧ (updateHeap (fun v => v) [[[255]], [[128]]] initMetric 0 1).1.getD 1 [] =
        ([[[255]], [[128]]] : Heap).getD 1 []
    ∧ (updateHeap (fun v => v) [[[255]], [[128]]] initMetric 0 1).2 =
        update (fun v => v) initMetric (([[[255]], [[128]]] : Heap).getD 0 [])
          (([[[255]], [[128]]] : Heap).getD 1 []) :=
  ⟨(update_preserves_caller_arrays (fun v => v) [[[255]], [[128]]] initMetric 0 1
      (by decide) (by decide)).1,
   (update_preserves_caller_arrays (fun v => v) [[[255]], [[128]]] initMetric 0 1
      (by decide) (by decide)).2.1,
   (update_preserves_caller_arrays (fun v => v) [[[255]], [[128]]] initMetric 0 1
      (by decide) (by decide)).2.2⟩

/-! ### C4: reporting on an empty accumulator -/

lemma zipWith_replicate_same {α β γ : Type _} (f : α → β → γ) (n : ℕ) (a : α) (b : β) :
    List.zipWith f (List.replicate n a) (List.replicate n b)
      = List.replicate n (f a b) := by
  induction n with
  | zero => rfl
  | succ k ih => simp [List.replicate_succ, ih]

lemma argmaxFAux_replicate_nan : ∀ (n i bi : ℕ),
    argmaxFAux (List.replicate n F64.nan) i F64.nan bi = bi := by
  intro n
  induction n with
  | zero => intro i bi; rfl
  | succ k ih =>
    intro i bi
    rw [List.replicate_succ]
    show (if npBeats F64.nan F64.nan then _ else _) = bi
    rw [if_neg (by simp [npBeats])]
    exact ih (i + 1) bi

lemma headD_replicate_pos {α : Type _} (n : ℕ) (a d : α) (h : 0 < n) :
    (List.replicate n a).headD d = a := by
  cases n with
  | zero => omega
  | succ k => rw [List.replicate_succ]; rfl

lemma getD_replicate_of_lt {α : Type _} (n i : ℕ) (a d : α) (h : i < n) :
    (List.replicate n a).getD i d = a := by
  simp [List.getD, List.getElem?_replicate, h]

lemma fMeasureF_init : fMeasureF initMetric = List.replicate thresholds F64.nan := by
  unfold fMeasureF initMetric
  rw [zipWith_replicate_same]
  have : npDiv (npMul (F64.fin (1 + beta)) (npMul (F64.fin 0) (F64.fin 0)))
      (npAdd (npMul (F64.fin beta) (F64.fin 0)) (F64.fin 0)) = F64.nan := by
    simp [npMul, npAdd, npDiv]
  rw [this]

lemma printTrace_init_aux :
    printTrace initMetric = ([F64.nan, F64.nan, F64.nan], some EvalErr.zeroDivision) := by
  have ham : argmaxF (List.replicate thresholds F64.nan) = 0 := by
    unfold argmaxF
    rw [headD_replicate_pos _ _ _ (by norm_num [thresholds])]
    exact argmaxFAux_replicate_nan thresholds 0 0
  unfold printTrace
  rw [fMeasureF_init]
  dsimp only
  rw [ham]
  have h1 : (List.replicate thresholds F64.nan).getD 0 F64.nan = F64.nan :=
    getD_replicate_of_lt _ _ _ _ (by norm_num [thresholds])
  have h2 : initMetric.precision.getD 0 0 = (0 : ℚ) := by
    show (List.replicate thresholds (0 : ℚ)).getD 0 0 = 0
    exact getD_replicate_of_lt _ _ _ _ (by norm_num [thresholds])
  have h3 : initMetric.recall.getD 0 0 = (0 : ℚ) := by
    show (List.replicate thresholds (0 : ℚ)).getD 0 0 = 0
    exact getD_replicate_of_lt _ _ _ _ (by norm_num [thresholds])
  have hc : initMetric.cnt = 0 := rfl
  rw [h1, h2, h3, hc]
  simp [npDiv]

/-- C4 counterexample.  Invoking `print_result` on the freshly initialized
accumulator (`cnt == 0`) does produce report values from zero
denominators: numpy evaluates the all-`0/0` F-measure array to NaN with
only a warning, so three NaN report lines are printed before any
exception. -/
theorem print_result_empty_emits_values :
    (printTrace initMetric).1.length = 3
    ∧ ∀ v ∈ (printTrace initMetric).1, v = F64.nan := by
  rw [printTrace_init_aux]
  exact ⟨rfl, by intro v hv; simpa using hv⟩

/-- C4 amended.  `print_result` on the empty accumulator does raise — the
MAE line divides the Python int `0` by the Python int `0` and raises
`ZeroDivisionError` — but only after the max-F, precision and recall lines
were already printed as NaN, each produced from a division with a zero
denominator that numpy tolerates with a warning. -/
theorem print_result_empty_trace :
    printTrace initMetric = ([F64.nan, F64.nan, F64.nan], some EvalErr.zeroDivision) :=
  printTrace_init_aux

/-! ### Concrete 4×4 test images and evaluation lemmas -/

/-- The 4×4 prediction of value 255 everywhere from the spec's concrete
scenarios. -/
def img255 : Img := List.replicate 4 (List.replicate 4 (255 : ℚ))

/-- The 4×4 all-zero ground truth from the spec's concrete scenarios. -/
def img0 : Img := List.replicate 4 (List.replicate 4 (0 : ℚ))

lemma countP_replicate_q (p : ℚ → Bool) (n : ℕ) (a : ℚ) :
    (List.replicate n a).countP p = if p a then n else 0 := by
  induction n with
  | zero => simp
  | succ k ih =>
    rw [List.replicate_succ, List.countP_cons, ih]
    cases h : p a <;> simp [h]

lemma countP_rep2 (p : ℚ → Bool) (m n : ℕ) (a : ℚ) :
    Img.countP p (List.replicate m (List.replicate n a)) = if p a then m * n else 0 := by
  unfold Img.countP
  rw [List.map_replicate, countP_replicate_q, List.sum_replicate]
  cases h : p a <;> simp [smul_eq_mul]

lemma countP2_rep2 (p : ℚ → ℚ → Bool) (m n : ℕ) (a b : ℚ) :
    Img.countP2 p (List.replicate m (List.replicate n a)) (List.replicate m (List.replicate n b))
      = if p a b then m * n else 0 := by
  unfold Img.countP2
  rw [zipWith_replicate_same, zipWith_replicate_same, List.sum_replicate,
    List.count_replicate]
  cases h : p a b <;> simp [h, smul_eq_mul]

lemma mean_rep44 (a : ℚ) : Img.mean (List.replicate 4 (List.replicate 4 a)) = a := by
  unfold Img.mean Img.sum Img.size Img.rows Img.cols
  rw [List.map_replicate, List.sum_replicate, List.sum_replicate,
    headD_replicate_pos _ _ _ (by norm_num)]
  simp only [List.length_replicate, smul_eq_mul, nsmul_eq_mul]
  push_cast
  ring

lemma scale_rep44 (c a : ℚ) :
    Img.scale c (List.replicate 4 (List.replicate 4 a))
      = List.replicate 4 (List.replicate 4 (c * a)) := by
  unfold Img.scale
  rw [List.map_replicate, List.map_replicate]

lemma map2_rep44 (f : ℚ → ℚ → ℚ) (a b : ℚ) :
    Img.map2 f (List.replicate 4 (List.replicate 4 a)) (List.replicate 4 (List.replicate 4 b))
      = List.replicate 4 (List.replicate 4 (f a b)) := by
  unfold Img.map2
  rw [zipWith_replicate_same, zipWith_replicate_same]

lemma sVal_gt_mean_zero (sq : ℚ → ℚ) (p g : Img) (h : Img.mean g = 0) :
    sVal sq p g = 1 - Img.mean p := by
  unfold sVal
  dsimp only
  rw [if_pos h]

lemma sVal_gt_mean_one (sq : ℚ → ℚ) (p g : Img) (h : Img.mean g = 1) :
    sVal sq p g = Img.mean p := by
  unfold sVal
  dsimp only
  rw [if_neg (by rw [h]; norm_num), if_pos h]

/-! ### C2: the all-255 prediction against the empty ground truth -/

/-- C2 counterexample.  For `pred` all-255 and `gt` all-zero (4×4), the
recall contribution at threshold 0 is the ε-guarded `ε/ε = 1` — the
maximal value, not a value near 0 (it is not even below 1/2); it is the
precision contribution that is near 0 there. -/
theorem recall_at_zero_threshold_cex :
    recInc img255 img0 0 = 1 ∧ ¬ recInc img255 img0 0 < 1 / 2 := by
  have hab : abCount img255 img0 0 = 0 := by
    unfold abCount img255 img0
    rw [countP2_rep2]
    norm_num
  have hb : bCount img0 0 = 0 := by
    unfold bCount img0
    rw [countP_rep2]
    norm_num
  have h1 : recInc img255 img0 0 = 1 := by
    unfold recInc
    rw [hab, hb]
    norm_num [eps]
  exact ⟨h1, by rw [h1]; norm_num⟩

/-- C2 amended.  For `pred` all-255 and `gt` all-zero (4×4): the S-measure
contribution is exactly 0 (`1 − mean(pred) = 1 − 1`, the empty-mask
branch), the MAE contribution is exactly 1, and at threshold 0 the
ε-guards of the empty ground-truth mask give a recall contribution of
exactly 1 (`ε/ε`) while the precision contribution `ε/(16+ε) = 1/160001`
is the one near 0. -/
theorem empty_gt_scenario (sq : ℚ → ℚ) :
    sVal sq (Img.scale (1/255) img255) (Img.scale (1/255) img0) = 0
    ∧ maeInc (Img.scale (1/255) img255) (Img.scale (1/255) img0) = 1
    ∧ recInc img255 img0 0 = 1
    ∧ precInc img255 img0 0 = 1 / 160001 := by
  have hp : Img.scale (1/255) img255 = List.replicate 4 (List.replicate 4 (1 : ℚ)) := by
    unfold img255
    rw [scale_rep44]
    norm_num
  have hg : Img.scale (1/255) img0 = List.replicate 4 (List.replicate 4 (0 : ℚ)) := by
    unfold img0
    rw [scale_rep44]
    norm_num
  have hab : abCount img255 img0 0 = 0 := by
    unfold abCount img255 img0
    rw [countP2_rep2]
    norm_num
  have hb : bCount img0 0 = 0 := by
    unfold bCount img0
    rw [countP_rep2]
    norm_num
  have ha : aCount img255 0 = 16 := by
    unfold aCount img255
    rw [countP_rep2]
    norm_num
  refine ⟨?_, ?_, ?_, ?_⟩
  · rw [hp, hg, sVal_gt_mean_zero _ _ _ (by rw [mean_rep44]), mean_rep44]
    norm_num
  · rw [hp, hg]
    unfold maeInc
    rw [map2_rep44]
    norm_num [mean_rep44]
  · unfold recInc
    rw [hab, hb]
    norm_num [eps]
  · unfold precInc
    rw [hab, ha]
    norm_num [eps]

/-! ### C8: the identical all-255 pair -/

lemma argmaxAux_no_update :
    ∀ (l : List ℚ) (i bi : ℕ) (bv : ℚ), (∀ v ∈ l, v ≤ bv) → argmaxAux l i bv bi = bi := by
  intro l
  induction l with
  | nil => intro i bi bv _; rfl
  | cons v t ih =>
    intro i bi bv h
    show (if bv < v then _ else _) = bi
    rw [if_neg (not_lt.mpr (h v (List.mem_cons_self v t)))]
    exact ih (i + 1) bi bv (fun w hw => h w (List.mem_cons_of_mem v hw))

lemma argmaxQ_range_map_zero (n : ℕ) (f : ℕ → ℚ) (hn : 0 < n)
    (h : ∀ i, i < n → f i ≤ f 0) : argmaxQ ((List.range n).map f) = 0 := by
  obtain ⟨k, rfl⟩ : ∃ k, n = k + 1 := ⟨n - 1, by omega⟩
  rw [List.range_succ_eq_map, List.map_cons, List.map_map]
  unfold argmaxQ
  simp only [List.headD_cons]
  show (if f 0 < f 0 then _ else _) = 0
  rw [if_neg (lt_irrefl (f 0))]
  apply argmaxAux_no_update
  intro v hv
  obtain ⟨i, hi, rfl⟩ := List.mem_map.mp hv
  exact h (Nat.succ i) (by simpa using List.mem_range.mp hi)

lemma aCount_img255 (th : ℕ) (h : th < 255) : aCount img255 th = 16 := by
  unfold aCount img255
  rw [countP_rep2]
  have hc : (th : ℚ) < 255 := by exact_mod_cast h
  simp [hc]

lemma aCount_img255_top : aCount img255 255 = 0 := by
  unfold aCount img255
  rw [countP_rep2]
  norm_num

lemma bCount_img255 (th : ℕ) (h : th < 256) : bCount img255 th = 16 := by
  unfold bCount img255
  rw [countP_rep2]
  have hc : (th : ℚ) / (thresholds : ℚ) < 255 := by
    rw [div_lt_iff₀ (by norm_num [thresholds])]
    have : (th : ℚ) < 256 := by exact_mod_cast h
    norm_num [thresholds]
    linarith
  simp [hc]

lemma abCount_img255 (th : ℕ) (h : th < 255) : abCount img255 img255 th = 16 := by
  unfold abCount img255
  rw [countP2_rep2]
  have hc : (th : ℚ) < 255 := by exact_mod_cast h
  have hc2 : (th : ℚ) / (thresholds : ℚ) < 255 := by
    rw [div_lt_iff₀ (by norm_num [thresholds])]
    norm_num [thresholds]
    linarith
  simp [hc, hc2]

lemma abCount_img255_top : abCount img255 img255 255 = 0 := by
  unfold abCount img255
  rw [countP2_rep2]
  norm_num

lemma getD_init_vec (th : ℕ) (h : th < thresholds) :
    (List.replicate thresholds (0 : ℚ)).getD th 0 = 0 :=
  getD_replicate_of_lt _ _ _ _ h

/-- C8.  A single update with `pred = gt` = the 4×4 all-255 image, then
`print_result`: the maximizing threshold index is 0 and the report is
max F-measure 1, precision 1, recall 1, MAE 0 and S-measure 1. -/
theorem identical_pair_scenario (sq : ℚ → ℚ) :
    printResult (update sq initMetric img255 img255)
      = { idx := 0, maxF := 1, precAt := 1, recAt := 1, maeAvg := 0, sAvg := 1 } := by
  have hp : Img.scale (1/255) img255 = List.replicate 4 (List.replicate 4 (1 : ℚ)) := by
    unfold img255
    rw [scale_rep44]
    norm_num
  have hmae : (update sq initMetric img255 img255).mae = 0 := by
    show initMetric.mae + maeInc (Img.scale (1/255) img255) (Img.scale (1/255) img255) = 0
    rw [hp]
    unfold maeInc
    rw [map2_rep44]
    norm_num [mean_rep44]
    rfl
  have hq : (update sq initMetric img255 img255).q = 1 := by
    show initMetric.q + sVal sq (Img.scale (1/255) img255) (Img.scale (1/255) img255) = 1
    rw [hp, sVal_gt_mean_one _ _ _ (by rw [mean_rep44]), mean_rep44]
    show (0 : ℚ) + 1 = 1
    norm_num
  have hcnt : (update sq initMetric img255 img255).cnt = 1 := rfl
  have hprec : (update sq initMetric img255 img255).precision
      = (List.range thresholds).map (fun _ => (1 : ℚ)) := by
    have h0 : (update sq initMetric img255 img255).precision
        = (List.range thresholds).map
            (fun t => initMetric.precision.getD t 0 + precInc img255 img255 t) := rfl
    rw [h0]
    apply List.map_congr_left
    intro th hth
    have hth' : th < thresholds := List.mem_range.mp hth
    rw [show initMetric.precision.getD th 0 = 0 from getD_init_vec th hth', zero_add]
    unfold precInc
    rcases Nat.lt_or_ge th 255 with hlt | hge
    · rw [abCount_img255 th hlt, aCount_img255 th hlt]
      norm_num [eps]
    · have h255 : th = 255 := by
        have : th < 256 := by simpa [thresholds] using hth'
        omega
      subst h255
      rw [abCount_img255_top, aCount_img255_top]
      norm_num [eps]
  have hrec : (update sq initMetric img255 img255).recall
      = (List.range thresholds).map (fun t => if t = 255 then (1/160001 : ℚ) else 1) := by
    have h0 : (update sq initMetric img255 img255).recall
        = (List.range thresholds).map
            (fun t => initMetric.recall.getD t 0 + recInc img255 img255 t) := rfl
    rw [h0]
    apply List.map_congr_left
    intro th hth
    have hth' : th < thresholds := List.mem_range.mp hth
    have hth256 : th < 256 := by simpa [thresholds] using hth'
    rw [show initMetric.recall.getD th 0 = 0 from getD_init_vec th hth', zero_add]
    unfold recInc
    rcases Nat.lt_or_ge th 255 with hlt | hge
    · rw [abCount_img255 th hlt, bCount_img255 th hth256, if_neg (by omega)]
      norm_num [eps]
    · have h255 : th = 255 := by omega
      subst h255
      rw [abCount_img255_top, bCount_img255 255 (by norm_num), if_pos rfl]
      norm_num [eps]
  unfold printResult
  dsimp only
  rw [hprec, hrec, zipWith_map_same, hmae, hq, hcnt]
  have hF0 : fM (1 : ℚ) (if (0 : ℕ) = 255 then (1/160001 : ℚ) else 1) = 1 := by
    norm_num [fM, beta]
  have ham : argmaxQ ((List.range thresholds).map
      (fun a => fM 1 (if a = 255 then (1/160001 : ℚ) else 1))) = 0 := by
    apply argmaxQ_range_map_zero _ _ (by norm_num [thresholds])
    intro i hi
    rw [hF0]
    by_cases h255 : i = 255
    · subst h255
      norm_num [fM, beta]
    · rw [if_neg h255]
      norm_num [fM, beta]
  rw [ham, getD_range_map _ _ _ (by norm_num [thresholds]),
    getD_range_map _ _ _ (by norm_num [thresholds]),
    getD_range_map _ _ _ (by norm_num [thresholds]), hF0]
  norm_num

end EGnet
